import Mathlib

/-!
Verification of the product-name resolution and price-matching engine of a
grocery shopping-list application.

Strings are modelled as `List Char`; prices and confidences as `ℚ`;
timestamps as `ℕ` (seconds).  External services (language model, web price
lookup) are modelled as oracle inputs.  Database tables are lists of rows in
table order; the Supabase query chains (`.eq`, `.gt`, `.limit(1).single()`)
are modelled as `List.find?`, and PostgREST upsert-with-on-conflict as an
update of the payload columns of matching rows (columns absent from the
payload keep their prior values on conflict, and take their SQL defaults on
insert).
-/

attribute [local semireducible] Rat.add Rat.mul Rat.inv Rat.sub Rat.ofScientific

deriving instance DecidableEq for Except

namespace GroceryResolver

/-! ## Text primitives (normalizeText in the edge function, normalizeQuery in the hook) -/

/-- Whitespace test, modelling both the JS regex class and `String.trim`. -/
def isWsChar (c : Char) : Bool := c.isWhitespace

/-- The quote and apostrophe variants removed by the normalizer:
U+05F4 gershayim, the double quote (34), the apostrophe (39), the
backquote (96). -/
def isQuoteChar (c : Char) : Bool :=
  c = Char.ofNat 1524 || c = Char.ofNat 34 || c = Char.ofNat 39 || c = Char.ofNat 96

/-- The dash variants replaced by a space: hyphen-minus (45), en dash
(8211), em dash (8212). -/
def isDashChar (c : Char) : Bool :=
  c = Char.ofNat 45 || c = Char.ofNat 8211 || c = Char.ofNat 8212

/-- JS `toLowerCase`, character-wise. -/
def lowerStr (s : List Char) : List Char := s.map Char.toLower

/-- The regex replace removing quote variants. -/
def stripQuotes (s : List Char) : List Char := s.filter (fun c => !isQuoteChar c)

/-- The regex replace mapping dash variants to a space. -/
def dashToSpace (s : List Char) : List Char :=
  s.map (fun c => if isDashChar c then ' ' else c)

/-- Worker for collapsing whitespace runs; the flag records whether we are
inside a run whose single replacement space was already emitted. -/
def collapseWsAux : Bool → List Char → List Char
  | _, [] => []
  | inRun, c :: rest =>
    if isWsChar c then
      if inRun then collapseWsAux true rest else ' ' :: collapseWsAux true rest
    else c :: collapseWsAux false rest

/-- Replace every maximal whitespace run by a single space. -/
def collapseWs (s : List Char) : List Char := collapseWsAux false s

/-- JS `String.trim`: drop whitespace from both ends. -/
def trimStr (s : List Char) : List Char :=
  ((s.dropWhile isWsChar).reverse.dropWhile isWsChar).reverse

/-- The `normalizeText` function of the national-average function (identical to
`normalizeQuery` in useShoppingList.ts): trim, lower-case, strip quote
variants, dashes to spaces, collapse whitespace, trim again. -/
def normalizeText (s : List Char) : List Char :=
  trimStr (collapseWs (dashToSpace (stripQuotes (lowerStr (trimStr s)))))

/-- Does `needle` occur at the start of `hay`? -/
def leadsWith : List Char → List Char → Bool
  | [], _ => true
  | _ :: _, [] => false
  | a :: as, b :: bs => a = b && leadsWith as bs

/-- JS `String.includes`: substring containment. -/
def strContains (hay needle : List Char) : Bool :=
  hay.tails.any (fun t => leadsWith needle t)

/-- JS `split(' ')`: split on single space characters. -/
def splitOnSpace : List Char → List (List Char)
  | [] => [[]]
  | c :: rest =>
    if c = ' ' then [] :: splitOnSpace rest
    else
      match splitOnSpace rest with
      | [] => [[c]]
      | w :: ws => (c :: w) :: ws

/-- JS `split(' ').filter(w => w.length > 0)`. -/
def wordsOf (s : List Char) : List (List Char) :=
  (splitOnSpace s).filter (fun w => decide (0 < w.length))

/-- SQL LIKE pattern matching against the whole string: `%` matches any
run, `_` any single character, backslash escapes the next pattern
character.  A pattern ending in a bare escape never matches (PostgreSQL
raises an error there; the callers swallow errors into a null result, which
coincides with `false`). -/
def likeMatch : List Char → List Char → Bool
  | [], s => s.isEmpty
  | '%' :: p, s => s.tails.any (fun t => likeMatch p t)
  | '_' :: p, s =>
    match s with
    | [] => false
    | _ :: s2 => likeMatch p s2
  | '\\' :: p, s =>
    match p with
    | [] => false
    | c2 :: p2 =>
      match s with
      | [] => false
      | c3 :: s2 => c2 = c3 && likeMatch p2 s2
  | c :: p, s =>
    match s with
    | [] => false
    | c3 :: s2 => c = c3 && likeMatch p s2

/-! ## Data model -/

/-- A row of the `price_lookup` table (the columns the resolver reads). -/
structure Product where
  canonical_key : List Char
  avg_price_ils : ℚ
  sample_count : ℕ
deriving DecidableEq, Repr

/-- A row of the `price_cache` table. -/
structure CacheEntry where
  query : List Char
  canonical_key : Option (List Char)
  avg_price_ils : Option ℚ
  confidence : ℚ
  sample_count : Option ℕ
  cached_at : ℕ
  expires_at : ℕ
deriving DecidableEq, Repr

/-- The migration default `expires_at = now() + interval '30 days'`,
in seconds. -/
def thirtyDays : ℕ := 30 * 24 * 60 * 60

/-- The JSON object extracted from the language-model reply in
`matchWithAI`: the `canonicalKey` field (`none` models JSON null or a
missing field) and the `confidence` field as a number. -/
structure ParsedAI where
  canonicalKey : Option (List Char)
  confidence : ℚ
deriving DecidableEq, Repr

/-- The value `matchWithAI` returns on a usable reply. -/
structure AIMatch where
  canonicalKey : List Char
  confidence : ℚ
deriving DecidableEq, Repr

/-- The response of the smart-price-lookup (web scraping) function, as
consumed by the orchestrator. -/
structure WebReply where
  found : Bool
  canonicalName : List Char
  avgPrice : Option ℚ
  confidence : Option ℚ
deriving DecidableEq, Repr

/-- The fields of the JSON response of the national-average function that
the claims are about, plus instrumentation flags recording which fallback
tiers were invoked during the resolution. -/
structure ServeOutcome where
  canonicalKey : Option (List Char)
  avgPriceIls : Option ℚ
  confidence : Option ℚ
  sampleCount : Option ℕ
  fromCache : Bool
  usedAI : Bool
  usedWeb : Bool
deriving DecidableEq, Repr

/-! ## FuzzyScorer and direct matching (findDirectMatch) -/

/-- The score the body of `findDirectMatch` assigns to one lookup row:
`normalized` is the normalized query, `key` the normalized candidate key.
First applicable rule wins: exact equality 1000; key contains query
`100 + 50/len(key)`; query contains key `80 + 40/len(key)`; otherwise
word-overlap `(matching/total)*60`; else 0. -/
def scoreKey (normalized key : List Char) : ℚ :=
  let queryWords := wordsOf normalized
  let keyWords := wordsOf key
  if key = normalized then 1000
  else if strContains key normalized then 100 + 50 / (key.length : ℚ)
  else if strContains normalized key then 80 + 40 / (key.length : ℚ)
  else
    let matchingWords := queryWords.filter
      (fun qw => keyWords.any (fun kw => strContains kw qw || strContains qw kw))
    if 0 < matchingWords.length then
      ((matchingWords.length : ℚ) / (queryWords.length : ℚ)) * 60
    else 0

/-- Insert into a list sorted by descending score, after all entries with a
score at least as large (so the overall sort is stable, as the JS engine
`sort` comparator `b.score - a.score` guarantees). -/
def insertScored (x : Product × ℚ) : List (Product × ℚ) → List (Product × ℚ)
  | [] => [x]
  | y :: ys => if y.2 < x.2 then x :: y :: ys else y :: insertScored x ys

/-- Stable sort by descending score. -/
def sortScoredDesc : List (Product × ℚ) → List (Product × ℚ)
  | [] => []
  | x :: xs => insertScored x (sortScoredDesc xs)

/-- The scan part of `findDirectMatch`: score every lookup row against the
normalized query, keep positive scores, sort descending, return the top
row with its score. -/
def fuzzyBest (items : List Product) (normalized : List Char) : Option (Product × ℚ) :=
  let scored := items.map
    (fun item => (item, scoreKey normalized (normalizeText item.canonical_key)))
  (sortScoredDesc (scored.filter (fun x => decide (0 < x.2)))).head?

/-- The `ilike(canonical_key, normalized)` exact step of `findDirectMatch`:
first row whose key matches the normalized query as a case-insensitive
LIKE pattern. -/
def exactIlike (items : List Product) (normalized : List Char) : Option Product :=
  items.find? (fun item => likeMatch (lowerStr normalized) (lowerStr item.canonical_key))

/-- The `findDirectMatch` function: normalize the query, try the exact (ilike) lookup,
then fall back to the fuzzy scan. -/
def findDirectMatch (items : List Product) (query : List Char) : Option Product :=
  let normalized := normalizeText query
  match exactIlike items normalized with
  | some m => some m
  | none => (fuzzyBest items normalized).map (fun x => x.1)

/-! ## SemanticMatcher response handling (matchWithAI) -/

/-- The final step of `matchWithAI`: accept the parsed object only when
`parsed.canonicalKey` is truthy (non-null, non-empty) and
`parsed.confidence > 0`; the confidence is passed through unchanged.  Any
transport failure, rate limit or unparseable reply is modelled by the
caller receiving `none` instead of a `ParsedAI`. -/
def parseAIMatch (p : ParsedAI) : Option AIMatch :=
  match p.canonicalKey with
  | none => none
  | some k =>
    if k ≠ [] ∧ 0 < p.confidence then some ⟨k, p.confidence⟩ else none

/-! ## ResultCache operations -/

/-- The cache read of the orchestrator:
`eq('query', nq).gt('expires_at', now).limit(1).single()`. -/
def freshCacheHit (cache : List CacheEntry) (nq : List Char) (now : ℕ) : Option CacheEntry :=
  cache.find? (fun e => decide (e.query = nq) && decide (now < e.expires_at))

/-- PostgREST upsert on `price_cache` with payload columns
`query, canonical_key, avg_price_ils, confidence, sample_count` and
`onConflict: 'query'`.  On conflict only the payload columns are updated;
`cached_at` and `expires_at` keep their prior values.  On insert the
migration defaults `cached_at = now`, `expires_at = now + 30 days` apply. -/
def upsertCacheRow (cache : List CacheEntry) (now : ℕ) (q : List Char)
    (ck : Option (List Char)) (price : Option ℚ) (conf : ℚ) (sc : Option ℕ) :
    List CacheEntry :=
  if cache.any (fun e => decide (e.query = q)) then
    cache.map (fun e =>
      if e.query = q then
        { e with canonical_key := ck, avg_price_ils := price,
                 confidence := conf, sample_count := sc }
      else e)
  else
    cache ++ [⟨q, ck, price, conf, sc, now, now + thirtyDays⟩]

/-- The `update({... cached_at: now}).eq('query', nq)` call of the
negative-cache recheck branch: sets the match columns and `cached_at`
(but not `expires_at`) on the matching row. -/
def updateCacheRow (cache : List CacheEntry) (q : List Char)
    (ck : Option (List Char)) (price : Option ℚ) (sc : Option ℕ) (conf : ℚ)
    (now : ℕ) : List CacheEntry :=
  cache.map (fun e =>
    if e.query = q then
      { e with canonical_key := ck, avg_price_ils := price,
               sample_count := sc, confidence := conf, cached_at := now }
    else e)

/-! ## ResolutionOrchestrator (the national-average serve handler, rev 2) -/

/-- JS truthiness of an optional number (null and 0 are falsy). -/
def truthyQ : Option ℚ → Bool
  | some q => decide (q ≠ 0)
  | none => false

/-- JS `v || d` for an optional number. -/
def jsOrQ (v : Option ℚ) (d : ℚ) : ℚ :=
  match v with
  | some q => if q = 0 then d else q
  | none => d

/-- The response built from a cache hit: JS truthiness turns a 0 price or
confidence into null before `parseFloat`. -/
def cachedOutcome (e : CacheEntry) : ServeOutcome :=
  { canonicalKey := e.canonical_key,
    avgPriceIls := if truthyQ e.avg_price_ils then e.avg_price_ils else none,
    confidence := if truthyQ (some e.confidence) then some e.confidence else none,
    sampleCount := e.sample_count,
    fromCache := true, usedAI := false, usedWeb := false }

/-- The web-scraping fallback branch: call smart-price-lookup; on a found,
truthy price return it directly (no cache write); otherwise cache a
negative entry with `aiMatch?.confidence ?? 0` and return a null price.
`web = none` models a failed or non-ok HTTP response. -/
def webTier (cache : List CacheEntry) (web : Option WebReply) (now : ℕ)
    (nq : List Char) (fallbackConf : ℚ) : ServeOutcome × List CacheEntry :=
  match web with
  | some w =>
    if w.found && truthyQ w.avgPrice then
      ({ canonicalKey := some w.canonicalName, avgPriceIls := w.avgPrice,
         confidence := some (jsOrQ w.confidence 0.7), sampleCount := some 1,
         fromCache := false, usedAI := true, usedWeb := true }, cache)
    else
      ({ canonicalKey := none, avgPriceIls := none, confidence := none,
         sampleCount := none, fromCache := false, usedAI := true, usedWeb := true },
       upsertCacheRow cache now nq none none fallbackConf none)
  | none =>
    ({ canonicalKey := none, avgPriceIls := none, confidence := none,
       sampleCount := none, fromCache := false, usedAI := true, usedWeb := true },
     upsertCacheRow cache now nq none none fallbackConf none)

/-- The `.eq('canonical_key', k).limit(1).single()` lookup of the key the
language model chose (exact, case-sensitive). -/
def lookupByKey (items : List Product) (k : List Char) : Option Product :=
  items.find? (fun p => decide (p.canonical_key = k))

/-- The serve handler of the national-average function (second revision:
semantic floor 0.55, web-scrape fallback), after input validation.
`ai` is the parsed language-model reply (`none` models transport failure,
rate limit, missing key or unparseable content); `web` the smart-lookup
reply.  Returns the response fields and the new `price_cache` table. -/
def serveNA (lookup : List Product) (cache : List CacheEntry)
    (ai : Option ParsedAI) (web : Option WebReply) (now : ℕ)
    (query : List Char) : ServeOutcome × List CacheEntry :=
  let nq := normalizeText query
  match freshCacheHit cache nq now with
  | some cached =>
    match cached.canonical_key with
    | none =>
      match findDirectMatch lookup nq with
      | some m =>
        ({ canonicalKey := some m.canonical_key, avgPriceIls := some m.avg_price_ils,
           confidence := some 1, sampleCount := some m.sample_count,
           fromCache := false, usedAI := false, usedWeb := false },
         updateCacheRow cache nq (some m.canonical_key) (some m.avg_price_ils)
           (some m.sample_count) 1 now)
      | none => (cachedOutcome cached, cache)
    | some _ => (cachedOutcome cached, cache)
  | none =>
    match findDirectMatch lookup nq with
    | some m =>
      ({ canonicalKey := some m.canonical_key, avgPriceIls := some m.avg_price_ils,
         confidence := some 1, sampleCount := some m.sample_count,
         fromCache := false, usedAI := false, usedWeb := false },
       upsertCacheRow cache now nq (some m.canonical_key) (some m.avg_price_ils)
         1 (some m.sample_count))
    | none =>
      if lookup.isEmpty then
        ({ canonicalKey := none, avgPriceIls := none, confidence := none,
           sampleCount := none, fromCache := false, usedAI := false, usedWeb := false },
         cache)
      else
        match ai.bind parseAIMatch with
        | some am =>
          if am.confidence < 0.55 then webTier cache web now nq am.confidence
          else
            match lookupByKey lookup am.canonicalKey with
            | none =>
              ({ canonicalKey := none, avgPriceIls := none, confidence := none,
                 sampleCount := none, fromCache := false, usedAI := true,
                 usedWeb := false }, cache)
            | some mp =>
              ({ canonicalKey := some mp.canonical_key,
                 avgPriceIls := some mp.avg_price_ils,
                 confidence := some am.confidence,
                 sampleCount := some mp.sample_count,
                 fromCache := false, usedAI := true, usedWeb := false },
               upsertCacheRow cache now nq (some mp.canonical_key)
                 (some mp.avg_price_ils) am.confidence (some mp.sample_count))
        | none => webTier cache web now nq 0

/-! ## The resolve_query SQL function and the useShoppingList hook -/

/-- Runtime failures of the `resolve_query` PL/pgSQL function.  In its
fourth (word-based) tier the SQL statement reads
`bool_and(lower(canonical_key) LIKE '%' || word || '%') FROM unnest(words) AS word`
inside a block that also declares a PL/pgSQL variable `word`; with the
default `plpgsql.variable_conflict = error` PostgreSQL raises
`42702 column reference "word" is ambiguous` as soon as that statement is
first executed, so the tier can never produce a row. -/
inductive RpcError where
  | ambiguousWordColumn
deriving DecidableEq, Repr

/-- The JSON object `resolve_query` builds on success. -/
structure RpcReply where
  resolved : Option (List Char)
  confidence : ℚ
  source : String
deriving DecidableEq, Repr

/-- The normalization of `resolve_query` itself:
`lower(trim(regexp_replace(q, '[\s]+', ' ', 'g')))` — collapse whitespace,
trim, lower-case; no quote or dash handling. -/
def rpcNormalize (q : List Char) : List Char := lowerStr (trimStr (collapseWs q))

/-- Insert into a list sorted by ascending raw-key length (model of
`ORDER BY length(canonical_key) ASC`, keeping table order on ties). -/
def insertByLen (x : Product) : List Product → List Product
  | [] => [x]
  | y :: ys =>
    if x.canonical_key.length < y.canonical_key.length then x :: y :: ys
    else y :: insertByLen x ys

/-- Stable sort by ascending key length. -/
def sortByLenAsc : List Product → List Product
  | [] => []
  | x :: xs => insertByLen x (sortByLenAsc xs)

/-- SQL `string_to_array(nq, ' ')`: empty array for the empty string, else the
space-split fields. -/
def sqlWords (nq : List Char) : List (List Char) :=
  if nq = [] then [] else splitOnSpace nq

/-- The `resolve_query(q)` RPC over the `price_lookup` and `price_cache`
tables: exact key match (1.0/'exact'), cached key match (0.95/'cache'),
shortest key containing the query (0.8/'partial'); the word-based fourth
tier raises the ambiguous-column error whenever it is reached with a
non-empty word list, and only an empty normalized query reaches the
fallback row. -/
def resolve_query (lookup : List Product) (cache : List CacheEntry)
    (q : List Char) : Except RpcError RpcReply :=
  let nq := rpcNormalize q
  match lookup.find? (fun p => decide (lowerStr p.canonical_key = nq)) with
  | some p => .ok ⟨some p.canonical_key, 1, "exact"⟩
  | none =>
    match cache.find? (fun e => decide (lowerStr e.query = nq) && e.canonical_key.isSome) with
    | some e => .ok ⟨e.canonical_key, 0.95, "cache"⟩
    | none =>
      match (sortByLenAsc (lookup.filter
          (fun p => likeMatch ('%' :: nq ++ ['%']) (lowerStr p.canonical_key)))).head? with
      | some p => .ok ⟨some p.canonical_key, 0.8, "partial"⟩
      | none =>
        if 0 < (sqlWords nq).length then .error .ambiguousWordColumn
        else .ok ⟨none, 0, "fallback"⟩

/-- What the hook's `resolveQuery` returns to `addItem`. -/
structure ResolveQueryResult where
  resolved : Option (List Char)
  confidence : ℚ
  source : String
deriving DecidableEq, Repr

/-- The `resolveQuery` callback in useShoppingList.ts: call the RPC, map any RPC error
to a null resolution with source 'rpc_error'. -/
def resolveQuery (lookup : List Product) (cache : List CacheEntry)
    (userText : List Char) : ResolveQueryResult :=
  match resolve_query lookup cache userText with
  | .error _ => ⟨none, 0, "rpc_error"⟩
  | .ok r => ⟨r.resolved, r.confidence, r.source⟩

/-- The `canonical_key` stored by `addItem`: `none` when the trimmed user
text is blank (addItem returns early and creates no entry); otherwise
`resolveResult.resolved ?? trimmedText`. -/
def addItemCanonicalKey (lookup : List Product) (cache : List CacheEntry)
    (userText : List Char) : Option (List Char) :=
  let trimmedText := trimStr userText
  if trimmedText = [] then none
  else some ((resolveQuery lookup cache trimmedText).resolved.getD trimmedText)

/-! ## Idempotence of normalizeText -/

/-- No two adjacent whitespace characters. -/
def wsRel (a b : Char) : Prop := ¬(isWsChar a = true ∧ isWsChar b = true)

/-- The head element (if any) is not whitespace. -/
def headNotWs (l : List Char) : Prop := ∀ c ∈ l.head?, isWsChar c = false

theorem collapseWsAux_nil (b : Bool) : collapseWsAux b [] = [] := rfl

theorem collapseWsAux_cons (b : Bool) (c : Char) (rest : List Char) :
    collapseWsAux b (c :: rest) =
      if isWsChar c then
        if b then collapseWsAux true rest else ' ' :: collapseWsAux true rest
      else c :: collapseWsAux false rest := rfl

theorem headNotWs_dropWhile (l : List Char) : headNotWs (l.dropWhile isWsChar) := by
  intro c hc
  have h := List.head?_dropWhile_not isWsChar l
  rw [Option.mem_def] at hc
  rw [hc] at h
  exact h

theorem dropWhile_eq_self_of_headNotWs {l : List Char} (h : headNotWs l) :
    l.dropWhile isWsChar = l := by
  cases l with
  | nil => rfl
  | cons c rest =>
    have hc : isWsChar c = false := h c (by simp)
    simp [List.dropWhile_cons, hc]

theorem headNotWs_trimStr (l : List Char) : headNotWs (trimStr l) := by
  intro c hc
  unfold trimStr at hc
  obtain ⟨t, ht⟩ :=
    List.dropWhile_suffix (l := (l.dropWhile isWsChar).reverse) isWsChar
  have haeq : l.dropWhile isWsChar =
      ((l.dropWhile isWsChar).reverse.dropWhile isWsChar).reverse ++ t.reverse := by
    conv_lhs => rw [← List.reverse_reverse (l.dropWhile isWsChar), ← ht]
    rw [List.reverse_append]
  have hmem : (l.dropWhile isWsChar).head? = some c := by
    rw [haeq, List.head?_append, Option.mem_def.mp hc]
    rfl
  exact headNotWs_dropWhile l c (Option.mem_def.mpr hmem)

theorem lastNotWs_trimStr (l : List Char) : headNotWs (trimStr l).reverse := by
  unfold trimStr
  rw [List.reverse_reverse]
  exact headNotWs_dropWhile _

theorem trimStr_eq_self {l : List Char} (h1 : headNotWs l)
    (h2 : headNotWs l.reverse) : trimStr l = l := by
  unfold trimStr
  rw [dropWhile_eq_self_of_headNotWs h1, dropWhile_eq_self_of_headNotWs h2,
    List.reverse_reverse]

theorem mem_collapseWsAux {c : Char} :
    ∀ (l : List Char) (b : Bool), c ∈ collapseWsAux b l → c = ' ' ∨ c ∈ l := by
  intro l
  induction l with
  | nil => intro b hc; rw [collapseWsAux_nil] at hc; exact absurd hc (List.not_mem_nil c)
  | cons d rest ih =>
    intro b hc
    rw [collapseWsAux_cons] at hc
    by_cases hd : isWsChar d = true
    · rw [if_pos hd] at hc
      cases b with
      | true =>
        rw [if_pos rfl] at hc
        rcases ih true hc with h | h
        · exact Or.inl h
        · exact Or.inr (List.mem_cons_of_mem _ h)
      | false =>
        rw [if_neg (by simp)] at hc
        rcases List.mem_cons.mp hc with h | h
        · exact Or.inl h
        · rcases ih true h with h' | h'
          · exact Or.inl h'
          · exact Or.inr (List.mem_cons_of_mem _ h')
    · rw [if_neg hd] at hc
      rcases List.mem_cons.mp hc with h | h
      · exact Or.inr (h ▸ List.mem_cons_self _ _)
      · rcases ih false h with h' | h'
        · exact Or.inl h'
        · exact Or.inr (List.mem_cons_of_mem _ h')

theorem ws_eq_space_of_mem_collapseWsAux {c : Char} :
    ∀ (l : List Char) (b : Bool),
      c ∈ collapseWsAux b l → isWsChar c = true → c = ' ' := by
  intro l
  induction l with
  | nil => intro b hc _; rw [collapseWsAux_nil] at hc; exact absurd hc (List.not_mem_nil c)
  | cons d rest ih =>
    intro b hc hw
    rw [collapseWsAux_cons] at hc
    by_cases hd : isWsChar d = true
    · rw [if_pos hd] at hc
      cases b with
      | true => rw [if_pos rfl] at hc; exact ih true hc hw
      | false =>
        rw [if_neg (by simp)] at hc
        rcases List.mem_cons.mp hc with h | h
        · exact h
        · exact ih true h hw
    · rw [if_neg hd] at hc
      rcases List.mem_cons.mp hc with h | h
      · subst h; exact absurd hw hd
      · exact ih false h hw

theorem headNotWs_collapseWsAux_true :
    ∀ l : List Char, headNotWs (collapseWsAux true l) := by
  intro l
  induction l with
  | nil => intro c hc; rw [collapseWsAux_nil] at hc; simp at hc
  | cons d rest ih =>
    by_cases hd : isWsChar d = true
    · rw [collapseWsAux_cons, if_pos hd, if_pos rfl]
      exact ih
    · rw [collapseWsAux_cons, if_neg hd]
      intro c hc
      simp only [List.head?_cons, Option.mem_def, Option.some.injEq] at hc
      subst hc
      exact Bool.not_eq_true _ |>.mp hd

theorem chain_collapseWsAux : ∀ (l : List Char) (b : Bool),
    (collapseWsAux b l).Chain' wsRel := by
  intro l
  induction l with
  | nil => intro b; rw [collapseWsAux_nil]; exact List.chain'_nil
  | cons d rest ih =>
    intro b
    by_cases hd : isWsChar d = true
    · cases b with
      | true => rw [collapseWsAux_cons, if_pos hd, if_pos rfl]; exact ih true
      | false =>
        rw [collapseWsAux_cons, if_pos hd, if_neg (by simp)]
        rw [List.chain'_cons']
        refine ⟨?_, ih true⟩
        intro y hy
        have hyw : isWsChar y = false := headNotWs_collapseWsAux_true rest y hy
        intro hcon
        rw [hyw] at hcon
        simp at hcon
    · rw [collapseWsAux_cons, if_neg hd]
      rw [List.chain'_cons']
      refine ⟨?_, ih false⟩
      intro y _ hcon
      exact hd hcon.1

theorem collapseWsAux_eq_self :
    ∀ (l : List Char) (b : Bool),
      (∀ c ∈ l, isWsChar c = true → c = ' ') → l.Chain' wsRel →
      (b = true → headNotWs l) → collapseWsAux b l = l := by
  intro l
  induction l with
  | nil => intro b _ _ _; rw [collapseWsAux_nil]
  | cons d rest ih =>
    intro b hflat hchain hb
    rcases List.chain'_cons'.mp hchain with ⟨hhead, htail⟩
    by_cases hd : isWsChar d = true
    · cases b with
      | true =>
        have hh := hb rfl d (by simp)
        rw [hd] at hh
        simp at hh
      | false =>
        have hds : d = ' ' := hflat d (List.mem_cons_self _ _) hd
        rw [collapseWsAux_cons, if_pos hd, if_neg (by simp)]
        have hrest : collapseWsAux true rest = rest := by
          refine ih true (fun c hc hw => hflat c (List.mem_cons_of_mem _ hc) hw) htail ?_
          intro _ y hy
          have hry := hhead y hy
          by_cases hyw : isWsChar y = true
          · exact absurd ⟨hd, hyw⟩ hry
          · exact Bool.not_eq_true _ |>.mp hyw
        rw [hrest, hds]
    · rw [collapseWsAux_cons, if_neg hd]
      have hrest : collapseWsAux false rest = rest :=
        ih false (fun c hc hw => hflat c (List.mem_cons_of_mem _ hc) hw) htail
          (fun h => by simp at h)
      rw [hrest]

theorem trimStr_subset {c : Char} {l : List Char} (h : c ∈ trimStr l) : c ∈ l := by
  unfold trimStr at h
  rw [List.mem_reverse] at h
  have h2 := (List.dropWhile_sublist (l := (l.dropWhile isWsChar).reverse) isWsChar).mem h
  rw [List.mem_reverse] at h2
  exact (List.dropWhile_sublist isWsChar).mem h2

theorem chain_reverse_wsRel {l : List Char} (h : l.Chain' wsRel) :
    l.reverse.Chain' wsRel := by
  rw [List.chain'_reverse]
  exact h.imp (fun a b hab hcon => hab ⟨hcon.2, hcon.1⟩)

theorem chain_trimStr {l : List Char} (h : l.Chain' wsRel) :
    (trimStr l).Chain' wsRel := by
  unfold trimStr
  exact chain_reverse_wsRel
    ((chain_reverse_wsRel (h.suffix (List.dropWhile_suffix isWsChar))).suffix
      (List.dropWhile_suffix isWsChar))

theorem toNat_ofNat_small (n : Nat) (h : n < 55296) : (Char.ofNat n).toNat = n := by
  have hv : n.isValidChar := Or.inl h
  rw [Char.ofNat, dif_pos hv]
  simp [Char.ofNatAux, Char.toNat, UInt32.toNat]

theorem toLower_toLower (c : Char) :
    Char.toLower (Char.toLower c) = Char.toLower c := by
  unfold Char.toLower
  by_cases h : c.toNat ≥ 65 ∧ c.toNat ≤ 90
  · rw [if_pos h]
    have hv : (Char.ofNat (c.toNat + 32)).toNat = c.toNat + 32 :=
      toNat_ofNat_small _ (by omega)
    rw [hv, if_neg (by omega)]
  · rw [if_neg h, if_neg h]

theorem lowerStr_eq_self {l : List Char} (h : ∀ c ∈ l, Char.toLower c = c) :
    lowerStr l = l := by
  unfold lowerStr
  rw [List.map_congr_left h, List.map_id']

theorem stripQuotes_eq_self {l : List Char} (h : ∀ c ∈ l, isQuoteChar c = false) :
    stripQuotes l = l := by
  unfold stripQuotes
  rw [List.filter_eq_self]
  intro a ha
  rw [h a ha]
  rfl

theorem dashToSpace_eq_self {l : List Char} (h : ∀ c ∈ l, isDashChar c = false) :
    dashToSpace l = l := by
  unfold dashToSpace
  rw [List.map_congr_left (g := id) ?_, List.map_id]
  intro a ha
  rw [h a ha]
  rfl

/-- Bundle of character-level facts holding for every output of
`normalizeText`: every character is lower-case-stable, not a quote or dash
variant, and any whitespace is a plain space; no two adjacent characters
are whitespace; neither end is whitespace. -/
def goodStr (l : List Char) : Prop :=
  (∀ c ∈ l, Char.toLower c = c ∧ isQuoteChar c = false ∧ isDashChar c = false ∧
    (isWsChar c = true → c = ' ')) ∧
  l.Chain' wsRel ∧ headNotWs l ∧ headNotWs l.reverse

theorem goodStr_normalizeText (s : List Char) : goodStr (normalizeText s) := by
  refine ⟨?_, ?_, headNotWs_trimStr _, lastNotWs_trimStr _⟩
  · intro c hc
    have hcol : c ∈ collapseWs (dashToSpace (stripQuotes (lowerStr (trimStr s)))) :=
      trimStr_subset hc
    have hws : isWsChar c = true → c = ' ' :=
      ws_eq_space_of_mem_collapseWsAux _ false hcol
    rcases mem_collapseWsAux _ false hcol with hsp | hdash
    · subst hsp
      exact ⟨by decide, by decide, by decide, fun _ => rfl⟩
    · unfold dashToSpace at hdash
      rcases List.mem_map.mp hdash with ⟨d, hd, hdc⟩
      by_cases hdd : isDashChar d = true
      · rw [if_pos hdd] at hdc
        subst hdc
        exact ⟨by decide, by decide, by decide, fun _ => rfl⟩
      · rw [if_neg hdd] at hdc
        subst hdc
        have hq : isQuoteChar d = false := by
          unfold stripQuotes at hd
          have := List.of_mem_filter hd
          simpa using this
        have hdq : d ∈ lowerStr (trimStr s) := List.mem_of_mem_filter hd
        rcases List.mem_map.mp hdq with ⟨e, _, hed⟩
        refine ⟨?_, hq, Bool.not_eq_true _ |>.mp hdd, hws⟩
        rw [← hed]
        exact toLower_toLower e
  · exact chain_trimStr (chain_collapseWsAux _ false)

theorem normalizeText_eq_self {l : List Char} (h : goodStr l) :
    normalizeText l = l := by
  obtain ⟨hchars, hchain, hh, hl⟩ := h
  unfold normalizeText
  rw [trimStr_eq_self hh hl]
  rw [lowerStr_eq_self (fun c hc => (hchars c hc).1)]
  rw [stripQuotes_eq_self (fun c hc => (hchars c hc).2.1)]
  rw [dashToSpace_eq_self (fun c hc => (hchars c hc).2.2.1)]
  have hcol : collapseWs l = l :=
    collapseWsAux_eq_self l false (fun c hc => (hchars c hc).2.2.2) hchain
      (fun hfalse => by simp at hfalse)
  rw [hcol]
  exact trimStr_eq_self hh hl

/-- Claim C7: text normalization is idempotent — normalizing an already
normalized string (trim, lower-case, strip quote variants, dashes to
spaces, collapse whitespace runs, trim) leaves it unchanged. -/
theorem normalizeText_idem (s : List Char) :
    normalizeText (normalizeText s) = normalizeText s :=
  normalizeText_eq_self (goodStr_normalizeText s)

/-! ## The fuzzy scorer: selection returns a maximal positive score -/

theorem scoreKey_nonneg (normalized key : List Char) :
    0 ≤ scoreKey normalized key := by
  simp only [scoreKey]
  repeat' split
  all_goals positivity

theorem mem_insertScored {y x : Product × ℚ} :
    ∀ l : List (Product × ℚ), y ∈ insertScored x l ↔ y = x ∨ y ∈ l := by
  intro l
  induction l with
  | nil => simp [insertScored]
  | cons z zs ih =>
    unfold insertScored
    by_cases h : z.2 < x.2
    · rw [if_pos h]
      simp
    · rw [if_neg h]
      simp only [List.mem_cons, ih]
      tauto

theorem mem_sortScoredDesc {y : Product × ℚ} :
    ∀ l : List (Product × ℚ), y ∈ sortScoredDesc l ↔ y ∈ l := by
  intro l
  induction l with
  | nil => simp [sortScoredDesc]
  | cons z zs ih =>
    unfold sortScoredDesc
    rw [mem_insertScored, ih]
    simp

theorem sortScoredDesc_head_max :
    ∀ (l : List (Product × ℚ)) (h : Product × ℚ),
      (sortScoredDesc l).head? = some h → ∀ y ∈ l, y.2 ≤ h.2 := by
  intro l
  induction l with
  | nil => intro h hh; simp [sortScoredDesc] at hh
  | cons x xs ih =>
    intro h hh y hy
    unfold sortScoredDesc at hh
    cases hs : sortScoredDesc xs with
    | nil =>
      rw [hs] at hh
      unfold insertScored at hh
      simp only [List.head?_cons, Option.some.injEq] at hh
      subst hh
      rcases List.mem_cons.mp hy with rfl | hmem
      · exact le_refl _
      · exfalso
        have : y ∈ sortScoredDesc xs := (mem_sortScoredDesc xs).mpr hmem
        rw [hs] at this
        exact absurd this (List.not_mem_nil y)
    | cons z zs =>
      rw [hs] at hh
      unfold insertScored at hh
      by_cases hzx : z.2 < x.2
      · rw [if_pos hzx] at hh
        simp only [List.head?_cons, Option.some.injEq] at hh
        subst hh
        rcases List.mem_cons.mp hy with rfl | hmem
        · exact le_refl _
        · have := ih z (by rw [hs]; rfl) y hmem
          linarith
      · rw [if_neg hzx] at hh
        simp only [List.head?_cons, Option.some.injEq] at hh
        subst hh
        rcases List.mem_cons.mp hy with rfl | hmem
        · linarith
        · exact ih z (by rw [hs]; rfl) y hmem

/-- Claim C1: on any normalized query and candidate list, the fuzzy
scorer/ranker returns a candidate exactly when some candidate has a
positive score under the rule chain (exact 1000; key-contains-query
`100 + 50/len`; query-contains-key `80 + 40/len`; word-overlap
`(overlap/total)*60`; else 0, excluded), and the returned candidate comes
from the list, carries its own rule score, and that score is maximal among
all candidates. -/
theorem fuzzyBest_spec (normalized : List Char) (items : List Product) :
    (∀ p s, fuzzyBest items normalized = some (p, s) →
        p ∈ items ∧ s = scoreKey normalized (normalizeText p.canonical_key) ∧
        0 < s ∧
        ∀ q ∈ items, scoreKey normalized (normalizeText q.canonical_key) ≤ s)
    ∧ (fuzzyBest items normalized = none ↔
        ∀ q ∈ items, scoreKey normalized (normalizeText q.canonical_key) = 0) := by
  constructor
  · intro p s hps
    unfold fuzzyBest at hps
    have hmem : (p, s) ∈ sortScoredDesc ((items.map
        (fun item => (item, scoreKey normalized (normalizeText item.canonical_key)))).filter
        (fun x => decide (0 < x.2))) := List.mem_of_mem_head? (Option.mem_def.mpr hps)
    have hmem2 := (mem_sortScoredDesc _).mp hmem
    have hpos : 0 < s := by
      have := List.of_mem_filter hmem2
      simpa using this
    have hmem3 := List.mem_of_mem_filter hmem2
    rcases List.mem_map.mp hmem3 with ⟨item, hitem, heq⟩
    have hp : p = item := congrArg Prod.fst heq |>.symm
    have hscore : s = scoreKey normalized (normalizeText p.canonical_key) := by
      have := congrArg Prod.snd heq
      simp only at this
      rw [hp]
      exact this.symm
    subst hp
    refine ⟨hitem, hscore, hpos, ?_⟩
    intro q hq
    by_cases hqpos : 0 < scoreKey normalized (normalizeText q.canonical_key)
    · have hqf : (q, scoreKey normalized (normalizeText q.canonical_key)) ∈
          (items.map
            (fun item => (item, scoreKey normalized (normalizeText item.canonical_key)))).filter
            (fun x => decide (0 < x.2)) := by
        rw [List.mem_filter]
        exact ⟨List.mem_map.mpr ⟨q, hq, rfl⟩, by simpa using hqpos⟩
      exact sortScoredDesc_head_max _ (p, s) hps
        (q, scoreKey normalized (normalizeText q.canonical_key)) hqf
    · push_neg at hqpos
      linarith
  · unfold fuzzyBest
    rw [List.head?_eq_none_iff]
    constructor
    · intro hnil q hq
      by_contra hne
      have hqpos : 0 < scoreKey normalized (normalizeText q.canonical_key) :=
        lt_of_le_of_ne (scoreKey_nonneg _ _) (Ne.symm hne)
      have hqf : (q, scoreKey normalized (normalizeText q.canonical_key)) ∈
          (items.map
            (fun item => (item, scoreKey normalized (normalizeText item.canonical_key)))).filter
            (fun x => decide (0 < x.2)) := by
        rw [List.mem_filter]
        exact ⟨List.mem_map.mpr ⟨q, hq, rfl⟩, by simpa using hqpos⟩
      have := (mem_sortScoredDesc _).mpr hqf
      rw [hnil] at this
      exact absurd this (List.not_mem_nil _)
    · intro hzero
      rw [List.eq_nil_iff_forall_not_mem]
      intro x hx
      have hx2 := (mem_sortScoredDesc _).mp hx
      have hpos : 0 < x.2 := by
        have := List.of_mem_filter hx2
        simpa using this
      have hx3 := List.mem_of_mem_filter hx2
      rcases List.mem_map.mp hx3 with ⟨item, hitem, heq⟩
      have : x.2 = scoreKey normalized (normalizeText item.canonical_key) := by
        rw [← heq]
      rw [this, hzero item hitem] at hpos
      exact lt_irrefl 0 hpos

/-- Witness for C1 at a concrete input: querying `"aa bb"` against the
candidates `"zz qq"` (score 0, excluded) and `"cc bb"` (word-overlap score
30) returns the `"cc bb"` row with the maximal positive score 30. -/
theorem fuzzyBest_spec_witness :
    (⟨"cc bb".data, 7, 2⟩ : Product) ∈
        [(⟨"zz qq".data, 5, 1⟩ : Product), ⟨"cc bb".data, 7, 2⟩] ∧
      (30 : ℚ) = scoreKey "aa bb".data
        (normalizeText (Product.canonical_key ⟨"cc bb".data, 7, 2⟩)) ∧
      (0 : ℚ) < 30 ∧
      ∀ q ∈ [(⟨"zz qq".data, 5, 1⟩ : Product), ⟨"cc bb".data, 7, 2⟩],
        scoreKey "aa bb".data (normalizeText q.canonical_key) ≤ 30 :=
  (fuzzyBest_spec "aa bb".data
    [⟨"zz qq".data, 5, 1⟩, ⟨"cc bb".data, 7, 2⟩]).1
    ⟨"cc bb".data, 7, 2⟩ 30 (by decide)

/-! ## Helper lemmas about the orchestrator building blocks -/

theorem findDirectMatch_nil (q : List Char) : findDirectMatch [] q = none := rfl

theorem webTier_usedWeb (cache : List CacheEntry) (web : Option WebReply)
    (now : ℕ) (nq : List Char) (fc : ℚ) :
    (webTier cache web now nq fc).1.usedWeb = true := by
  cases web with
  | none => rfl
  | some w =>
    by_cases h : (w.found && truthyQ w.avgPrice) = true
    · simp [webTier, h]
    · simp [webTier, h]

theorem webTier_success (cache : List CacheEntry) (w : WebReply) (now : ℕ)
    (nq : List Char) (fc : ℚ) (h : (w.found && truthyQ w.avgPrice) = true) :
    webTier cache (some w) now nq fc =
      ({ canonicalKey := some w.canonicalName, avgPriceIls := w.avgPrice,
         confidence := some (jsOrQ w.confidence 0.7), sampleCount := some 1,
         fromCache := false, usedAI := true, usedWeb := true }, cache) := by
  simp [webTier, h]

theorem webTier_noPrice (cache : List CacheEntry) (w : WebReply) (now : ℕ)
    (nq : List Char) (fc : ℚ) (h : (w.found && truthyQ w.avgPrice) = false) :
    webTier cache (some w) now nq fc =
      ({ canonicalKey := none, avgPriceIls := none, confidence := none,
         sampleCount := none, fromCache := false, usedAI := true, usedWeb := true },
       upsertCacheRow cache now nq none none fc none) := by
  simp [webTier, h]

theorem webTier_failed (cache : List CacheEntry) (now : ℕ)
    (nq : List Char) (fc : ℚ) :
    webTier cache none now nq fc =
      ({ canonicalKey := none, avgPriceIls := none, confidence := none,
         sampleCount := none, fromCache := false, usedAI := true, usedWeb := true },
       upsertCacheRow cache now nq none none fc none) := rfl

theorem exists_entry_upsertCacheRow (cache : List CacheEntry) (now : ℕ)
    (q : List Char) (ck : Option (List Char)) (price : Option ℚ) (conf : ℚ)
    (sc : Option ℕ) :
    ∃ e ∈ upsertCacheRow cache now q ck price conf sc,
      e.query = q ∧ e.canonical_key = ck ∧ e.confidence = conf := by
  unfold upsertCacheRow
  by_cases h : cache.any (fun e => decide (e.query = q)) = true
  · rw [if_pos h]
    rcases List.any_eq_true.mp h with ⟨e0, he0, hq⟩
    have hq2 : e0.query = q := of_decide_eq_true hq
    refine ⟨⟨e0.query, ck, price, conf, sc, e0.cached_at, e0.expires_at⟩,
      List.mem_map.mpr ⟨e0, he0, ?_⟩, hq2, rfl, rfl⟩
    rw [if_pos hq2]
  · rw [if_neg h]
    exact ⟨⟨q, ck, price, conf, sc, now, now + thirtyDays⟩,
      List.mem_append_right _ (List.mem_singleton.mpr rfl), rfl, rfl, rfl⟩

theorem parseAIMatch_inv (p : ParsedAI) (am : AIMatch)
    (h : parseAIMatch p = some am) :
    am.confidence = p.confidence ∧ 0 < p.confidence := by
  unfold parseAIMatch at h
  cases hk : p.canonicalKey with
  | none => rw [hk] at h; exact absurd h (by simp)
  | some k =>
    rw [hk] at h
    dsimp only at h
    by_cases hcond : k ≠ [] ∧ 0 < p.confidence
    · rw [if_pos hcond] at h
      injection h with h
      subst h
      exact ⟨rfl, hcond.2⟩
    · rw [if_neg hcond] at h
      exact absurd h (by simp)

/-! ## Claim theorems about the orchestrator -/

/-- Claim C2: on a fresh cache hit whose entry is a negative
(`canonical_key = null`), the orchestrator re-runs only the deterministic
direct matcher (exact + fuzzy): if it now finds a match the match is
returned with confidence 1 and the cache row is updated; otherwise the
cached negative is returned as a cache hit and neither the semantic nor
the web tier runs. -/
theorem negativeCacheRecheck
    (lookup : List Product) (cache : List CacheEntry) (ai : Option ParsedAI)
    (web : Option WebReply) (now : ℕ) (query : List Char) (e : CacheEntry)
    (hfind : freshCacheHit cache (normalizeText query) now = some e)
    (hneg : e.canonical_key = none) :
    (∀ m, findDirectMatch lookup (normalizeText query) = some m →
        serveNA lookup cache ai web now query =
          ({ canonicalKey := some m.canonical_key,
             avgPriceIls := some m.avg_price_ils,
             confidence := some 1, sampleCount := some m.sample_count,
             fromCache := false, usedAI := false, usedWeb := false },
           updateCacheRow cache (normalizeText query) (some m.canonical_key)
             (some m.avg_price_ils) (some m.sample_count) 1 now))
    ∧ (findDirectMatch lookup (normalizeText query) = none →
        serveNA lookup cache ai web now query = (cachedOutcome e, cache)
          ∧ (cachedOutcome e).canonicalKey = none
          ∧ (cachedOutcome e).fromCache = true
          ∧ (cachedOutcome e).usedAI = false
          ∧ (cachedOutcome e).usedWeb = false) := by
  constructor
  · intro m hm
    simp only [serveNA, hfind, hneg, hm]
  · intro hm
    refine ⟨by simp only [serveNA, hfind, hneg, hm], ?_, rfl, rfl, rfl⟩
    simp only [cachedOutcome, hneg]

/-- Witness for C2 at a concrete state: a fresh cached negative for
`"milk"` is rechecked against a lookup table that now contains `"milk"`,
and the new match is returned with confidence 1 while the row is updated. -/
theorem negativeCacheRecheck_witness :
    serveNA [⟨"milk".data, 10, 3⟩] [⟨"milk".data, none, none, 0, none, 0, 1000⟩]
        none none 10 "milk".data =
      ({ canonicalKey := some "milk".data, avgPriceIls := some 10,
         confidence := some 1, sampleCount := some 3,
         fromCache := false, usedAI := false, usedWeb := false },
       updateCacheRow [⟨"milk".data, none, none, 0, none, 0, 1000⟩]
         (normalizeText "milk".data) (some "milk".data) (some 10) (some 3) 1 10) :=
  (negativeCacheRecheck [⟨"milk".data, 10, 3⟩]
    [⟨"milk".data, none, none, 0, none, 0, 1000⟩] none none 10 "milk".data
    ⟨"milk".data, none, none, 0, none, 0, 1000⟩ (by decide) rfl).1
    ⟨"milk".data, 10, 3⟩ (by decide)

/-- Claim C9: whenever the deterministic direct matcher produces a match
(exact or arbitrarily weak fuzzy), the orchestrator returns it with
confidence exactly 1 and caches it with confidence 1 — the internal fuzzy
score never reaches the reported confidence. -/
theorem directMatchConfidenceOne
    (lookup : List Product) (cache : List CacheEntry) (ai : Option ParsedAI)
    (web : Option WebReply) (now : ℕ) (query : List Char) (m : Product)
    (hcache : freshCacheHit cache (normalizeText query) now = none)
    (hdm : findDirectMatch lookup (normalizeText query) = some m) :
    serveNA lookup cache ai web now query =
      ({ canonicalKey := some m.canonical_key, avgPriceIls := some m.avg_price_ils,
         confidence := some 1, sampleCount := some m.sample_count,
         fromCache := false, usedAI := false, usedWeb := false },
       upsertCacheRow cache now (normalizeText query) (some m.canonical_key)
         (some m.avg_price_ils) 1 (some m.sample_count)) := by
  simp only [serveNA, hcache, hdm]

/-- Witness for C9 at a concrete state: the query `"aa bb"` only matches
`"cc bb"` through the weak word-overlap rule (fuzzy score 30), yet the
result and the cache row both carry confidence exactly 1. -/
theorem directMatchConfidenceOne_witness :
    scoreKey "aa bb".data "cc bb".data = 30 ∧
    serveNA [⟨"zz qq".data, 5, 1⟩, ⟨"cc bb".data, 7, 2⟩] [] none none 0 "aa bb".data =
      ({ canonicalKey := some "cc bb".data, avgPriceIls := some 7,
         confidence := some 1, sampleCount := some 2,
         fromCache := false, usedAI := false, usedWeb := false },
       upsertCacheRow [] 0 (normalizeText "aa bb".data) (some "cc bb".data)
         (some 7) 1 (some 2)) :=
  ⟨by decide,
   directMatchConfidenceOne [⟨"zz qq".data, 5, 1⟩, ⟨"cc bb".data, 7, 2⟩] [] none none 0
     "aa bb".data ⟨"cc bb".data, 7, 2⟩ (by decide) (by decide)⟩

/-- Amended claim C6: with an empty canonical universe (and no fresh cache
hit) the resolution returns a clean not-found response — canonical key,
price and confidence all null — without touching the cache, and it skips
both the semantic and the web-fetch tier (the web tier is not attempted,
contrary to the original claim). -/
theorem emptyUniverseNotFound
    (cache : List CacheEntry) (ai : Option ParsedAI) (web : Option WebReply)
    (now : ℕ) (query : List Char)
    (hcache : freshCacheHit cache (normalizeText query) now = none) :
    serveNA [] cache ai web now query =
      ({ canonicalKey := none, avgPriceIls := none, confidence := none,
         sampleCount := none, fromCache := false, usedAI := false,
         usedWeb := false }, cache) := by
  simp only [serveNA, hcache, findDirectMatch_nil, List.isEmpty_nil, if_true]

/-- Witness for the amended C6. -/
theorem emptyUniverseNotFound_witness :
    serveNA [] [] none (some ⟨true, "milk".data, some 10, some (9/10)⟩) 5 "milk".data =
      ({ canonicalKey := none, avgPriceIls := none, confidence := none,
         sampleCount := none, fromCache := false, usedAI := false,
         usedWeb := false }, []) :=
  emptyUniverseNotFound [] none (some ⟨true, "milk".data, some 10, some (9/10)⟩) 5
    "milk".data (by decide)

/-- Counterexample to C6 as stated: with an empty canonical universe the
web-fetch tier is NOT attempted, even when the web oracle would have
found a price (here: found, price 10, confidence 0.9); the resolution
returns not-found without invoking it. -/
theorem emptyUniverseSkipsWeb_cex :
    (serveNA [] [] none (some ⟨true, "milk".data, some 10, some (9/10)⟩) 0
        "milk".data).1.avgPriceIls = none
    ∧ (serveNA [] [] none (some ⟨true, "milk".data, some 10, some (9/10)⟩) 0
        "milk".data).1.usedWeb = false := by
  decide

/-- Claim C4: when a query reaches the semantic tier and the language
model's match has confidence below the acceptance floor 0.55, that match
is never accepted as the final answer: resolution proceeds exactly as the
web-fetch tier; on a usable web result that result is returned (without a
cache write), and otherwise a negative entry is cached and a null price
returned. -/
theorem aiBelowFloorFallsToWeb
    (lookup : List Product) (cache : List CacheEntry) (web : Option WebReply)
    (now : ℕ) (query : List Char) (p : ParsedAI) (am : AIMatch)
    (hcache : freshCacheHit cache (normalizeText query) now = none)
    (hdm : findDirectMatch lookup (normalizeText query) = none)
    (hne : lookup.isEmpty = false)
    (hai : parseAIMatch p = some am)
    (hlow : am.confidence < 0.55) :
    serveNA lookup cache (some p) web now query =
        webTier cache web now (normalizeText query) am.confidence
      ∧ (serveNA lookup cache (some p) web now query).1.usedWeb = true
      ∧ (∀ w, web = some w → (w.found && truthyQ w.avgPrice) = true →
          (serveNA lookup cache (some p) web now query).1.canonicalKey =
              some w.canonicalName
            ∧ (serveNA lookup cache (some p) web now query).2 = cache)
      ∧ (web = none →
          (serveNA lookup cache (some p) web now query).1.avgPriceIls = none
            ∧ ∃ e ∈ (serveNA lookup cache (some p) web now query).2,
                e.query = normalizeText query ∧ e.canonical_key = none) := by
  have hmain : serveNA lookup cache (some p) web now query =
      webTier cache web now (normalizeText query) am.confidence := by
    simp only [serveNA, hcache, hdm, hne, Bool.false_eq_true, if_false,
      Option.some_bind, hai, if_pos hlow]
  refine ⟨hmain, ?_, ?_, ?_⟩
  · rw [hmain]
    exact webTier_usedWeb _ _ _ _ _
  · intro w hw hok
    subst hw
    rw [hmain, webTier_success cache w now (normalizeText query) am.confidence hok]
    exact ⟨rfl, rfl⟩
  · intro hw
    subst hw
    rw [hmain, webTier_failed]
    exact ⟨rfl, exists_entry_upsertCacheRow cache now (normalizeText query)
      none none am.confidence none |>.imp
      (fun e he => ⟨he.1, he.2.1, he.2.2.1⟩)⟩

/-- Witness for C4 at a concrete state: a semantic match with confidence
0.1 (below the 0.55 floor) on query `"zzz"` is not accepted; the web tier
is invoked, and with a failed web call a negative entry for the
normalized query is cached. -/
theorem aiBelowFloorFallsToWeb_witness :
    serveNA [⟨"milk".data, 10, 1⟩] [] (some ⟨some "milk".data, 1/10⟩) none 0 "zzz".data =
        webTier [] none 0 (normalizeText "zzz".data) (1/10)
      ∧ (serveNA [⟨"milk".data, 10, 1⟩] [] (some ⟨some "milk".data, 1/10⟩) none 0
          "zzz".data).1.usedWeb = true := by
  have h := aiBelowFloorFallsToWeb [⟨"milk".data, 10, 1⟩] [] none 0 "zzz".data
    ⟨some "milk".data, 1/10⟩ ⟨"milk".data, 1/10⟩ (by decide) (by decide) (by decide)
    (by decide) (by decide)
  exact ⟨h.1, h.2.1⟩

/-- Counterexample to C5 as stated: `matchWithAI` performs no range
validation — a parsed reply whose confidence is 2 (outside `[0,1]`) is not
treated as 0; it is returned as a match carrying confidence 2. -/
theorem aiOutOfRangeNotZero_cex :
    parseAIMatch ⟨some "milk".data, 2⟩ = some ⟨"milk".data, 2⟩ ∧ ¬((2 : ℚ) ≤ 1) := by
  decide

/-- Amended claim C5: response handling never crashes — a null or empty
`canonicalKey` or a non-positive confidence yields a non-match (`none`) —
but a positive confidence is propagated entirely unvalidated: whatever
number the model reported (including values above 1) flows through the
floor comparison and, when accepted, into the final response and the
cache, unchanged. -/
theorem aiConfidencePropagatedRaw
    (lookup : List Product) (cache : List CacheEntry) (web : Option WebReply)
    (now : ℕ) (query : List Char) (p : ParsedAI) (am : AIMatch) (mp : Product)
    (hcache : freshCacheHit cache (normalizeText query) now = none)
    (hdm : findDirectMatch lookup (normalizeText query) = none)
    (hne : lookup.isEmpty = false)
    (hai : parseAIMatch p = some am)
    (hhigh : ¬ am.confidence < 0.55)
    (hkey : lookupByKey lookup am.canonicalKey = some mp) :
    am.confidence = p.confidence ∧
    serveNA lookup cache (some p) web now query =
      ({ canonicalKey := some mp.canonical_key, avgPriceIls := some mp.avg_price_ils,
         confidence := some am.confidence, sampleCount := some mp.sample_count,
         fromCache := false, usedAI := true, usedWeb := false },
       upsertCacheRow cache now (normalizeText query) (some mp.canonical_key)
         (some mp.avg_price_ils) am.confidence (some mp.sample_count)) := by
  refine ⟨(parseAIMatch_inv p am hai).1, ?_⟩
  simp only [serveNA, hcache, hdm, hne, Bool.false_eq_true, if_false,
    Option.some_bind, hai, if_neg hhigh, hkey]

/-- Witness for the amended C5: the model reports confidence 2 — outside
`[0,1]` — and the orchestrator accepts it and reports exactly confidence 2
in the response and the cache row. -/
theorem aiConfidencePropagatedRaw_witness :
    (2 : ℚ) = (⟨some "milk".data, 2⟩ : ParsedAI).confidence ∧
    serveNA [⟨"milk".data, 10, 1⟩] [] (some ⟨some "milk".data, 2⟩) none 0 "zzz".data =
      ({ canonicalKey := some "milk".data, avgPriceIls := some 10,
         confidence := some 2, sampleCount := some 1,
         fromCache := false, usedAI := true, usedWeb := false },
       upsertCacheRow [] 0 (normalizeText "zzz".data) (some "milk".data)
         (some 10) 2 (some 1)) :=
  aiConfidencePropagatedRaw [⟨"milk".data, 10, 1⟩] [] none 0 "zzz".data
    ⟨some "milk".data, 2⟩ ⟨"milk".data, 2⟩ ⟨"milk".data, 10, 1⟩
    (by decide) (by decide) (by decide) (by decide) (by decide) (by decide)

/-! ## Claim theorems about the cache put operation -/

/-- Counterexample to C3 as stated: re-resolving `"milk"` after its cache
row (here an expired negative, `expires_at = 5 < now = 100`) upserts the
match fields but leaves `cached_at = 0 ≠ now` and
`expires_at = 5 ≠ now + 30 days`: on conflict the PostgREST upsert only
writes the payload columns, and the SQL defaults for the two timestamps
apply only to freshly inserted rows. -/
theorem cachePutKeepsOldExpiry_cex :
    serveNA [⟨"milk".data, 10, 3⟩] [⟨"milk".data, none, none, 0, none, 0, 5⟩]
        none none 100 "milk".data =
      ({ canonicalKey := some "milk".data, avgPriceIls := some 10,
         confidence := some 1, sampleCount := some 3, fromCache := false,
         usedAI := false, usedWeb := false },
       [⟨"milk".data, some "milk".data, some 10, 1, some 3, 0, 5⟩])
    ∧ (5 : ℕ) ≠ 100 + thirtyDays ∧ (0 : ℕ) ≠ 100 := by
  decide

/-- Amended claim C3: the cache put upserts by normalized query and
overwrites the match fields (canonicalKey, avgPriceIls, confidence,
sampleCount) of any prior entry for that query, including a prior
negative; but `cachedAt = now` and `expiresAt = now + 30 days` are only
set on a fresh insert (via the column defaults) — a pre-existing row
keeps its original `cachedAt` and `expiresAt`. -/
theorem cachePutUpsertSemantics
    (cache : List CacheEntry) (now : ℕ) (q : List Char)
    (ck : Option (List Char)) (price : Option ℚ) (conf : ℚ) (sc : Option ℕ) :
    ((cache.any (fun e => decide (e.query = q))) = false →
      upsertCacheRow cache now q ck price conf sc =
        cache ++ [⟨q, ck, price, conf, sc, now, now + thirtyDays⟩])
    ∧ (∀ e ∈ cache, e.query = q →
        (⟨e.query, ck, price, conf, sc, e.cached_at, e.expires_at⟩ : CacheEntry) ∈
          upsertCacheRow cache now q ck price conf sc) := by
  constructor
  · intro h
    unfold upsertCacheRow
    rw [if_neg (by rw [h]; exact Bool.false_ne_true)]
  · intro e he hq
    unfold upsertCacheRow
    rw [if_pos (List.any_eq_true.mpr ⟨e, he, decide_eq_true hq⟩)]
    refine List.mem_map.mpr ⟨e, he, ?_⟩
    rw [if_pos hq]

/-- Witness for the amended C3: a fresh insert takes `cachedAt = now = 7`
and `expiresAt = 7 + 30 days`; overwriting the prior negative row for
`"milk"` keeps its original timestamps (3 and 9) while replacing the match
fields. -/
theorem cachePutUpsertSemantics_witness :
    upsertCacheRow [] 7 "milk".data (some "milk".data) (some 10) 1 (some 2) =
        [⟨"milk".data, some "milk".data, some 10, 1, some 2, 7, 7 + thirtyDays⟩]
    ∧ (⟨"milk".data, some "milk".data, some 10, 1, some 2, 3, 9⟩ : CacheEntry) ∈
        upsertCacheRow [⟨"milk".data, none, none, 0, none, 3, 9⟩] 7 "milk".data
          (some "milk".data) (some 10) 1 (some 2) :=
  ⟨(cachePutUpsertSemantics [] 7 "milk".data (some "milk".data) (some 10) 1
      (some 2)).1 (by decide),
   (cachePutUpsertSemantics [⟨"milk".data, none, none, 0, none, 3, 9⟩] 7 "milk".data
      (some "milk".data) (some 10) 1 (some 2)).2
      ⟨"milk".data, none, none, 0, none, 3, 9⟩ (by decide) rfl⟩

/-! ## Claim theorems about resolve_query and addItem -/

theorem mem_insertByLen {y x : Product} :
    ∀ l : List Product, y ∈ insertByLen x l ↔ y = x ∨ y ∈ l := by
  intro l
  induction l with
  | nil => simp [insertByLen]
  | cons z zs ih =>
    unfold insertByLen
    by_cases h : x.canonical_key.length < z.canonical_key.length
    · rw [if_pos h]
      simp
    · rw [if_neg h]
      simp only [List.mem_cons, ih]
      tauto

theorem mem_sortByLenAsc {y : Product} :
    ∀ l : List Product, y ∈ sortByLenAsc l ↔ y ∈ l := by
  intro l
  induction l with
  | nil => simp [sortByLenAsc]
  | cons z zs ih =>
    unfold sortByLenAsc
    rw [mem_insertByLen, ih]
    simp

/-- Any key the RPC resolves comes from a `price_lookup` row or a
`price_cache` row. -/
theorem resolve_query_resolved_mem
    (lookup : List Product) (cache : List CacheEntry) (q : List Char)
    (r : RpcReply) (k : List Char)
    (h : resolve_query lookup cache q = .ok r) (h2 : r.resolved = some k) :
    (∃ p ∈ lookup, p.canonical_key = k) ∨ (∃ e ∈ cache, e.canonical_key = some k) := by
  simp only [resolve_query] at h
  cases h1 : lookup.find? (fun p => decide (lowerStr p.canonical_key = rpcNormalize q)) with
  | some p =>
    rw [h1] at h
    injection h with h
    subst h
    simp only at h2
    injection h2 with h2
    exact Or.inl ⟨p, List.mem_of_find?_eq_some h1, h2⟩
  | none =>
    rw [h1] at h
    cases hc : cache.find?
        (fun e => decide (lowerStr e.query = rpcNormalize q) && e.canonical_key.isSome) with
    | some e =>
      rw [hc] at h
      injection h with h
      subst h
      exact Or.inr ⟨e, List.mem_of_find?_eq_some hc, h2⟩
    | none =>
      rw [hc] at h
      cases hp : (sortByLenAsc (lookup.filter
          (fun p => likeMatch ('%' :: rpcNormalize q ++ ['%'])
            (lowerStr p.canonical_key)))).head? with
      | some p =>
        rw [hp] at h
        injection h with h
        subst h
        simp only at h2
        injection h2 with h2
        have hmem := List.mem_of_mem_head? (Option.mem_def.mpr hp)
        have hmem2 := (mem_sortByLenAsc _).mp hmem
        exact Or.inl ⟨p, List.mem_of_mem_filter hmem2, h2⟩
      | none =>
        rw [hp] at h
        by_cases hw : 0 < (sqlWords (rpcNormalize q)).length
        · rw [if_pos hw] at h
          exact absurd h (by simp)
        · rw [if_neg hw] at h
          injection h with h
          subst h
          exact absurd h2 (by simp)

/-- Claim C8: every shopping-list entry created by `addItem` from
non-blank user text carries a non-empty canonical key, provided the data
store's canonical keys are non-empty; the key is the RPC resolution when
one exists and the trimmed user text otherwise (also on RPC errors). -/
theorem addItemKeyNonempty
    (lookup : List Product) (cache : List CacheEntry) (userText ck : List Char)
    (hk : ∀ p ∈ lookup, p.canonical_key ≠ [])
    (hc : ∀ e ∈ cache, ∀ k, e.canonical_key = some k → k ≠ [])
    (h : addItemCanonicalKey lookup cache userText = some ck) :
    ck ≠ [] ∧
      ck = (resolveQuery lookup cache (trimStr userText)).resolved.getD
        (trimStr userText) := by
  unfold addItemCanonicalKey at h
  by_cases ht : trimStr userText = []
  · rw [if_pos ht] at h
    exact absurd h (by simp)
  · rw [if_neg ht] at h
    injection h with h
    refine ⟨?_, h.symm⟩
    subst h
    cases hres : (resolveQuery lookup cache (trimStr userText)).resolved with
    | none => simpa [hres] using ht
    | some k =>
      rw [Option.getD_some]
      unfold resolveQuery at hres
      cases hr : resolve_query lookup cache (trimStr userText) with
      | error err => rw [hr] at hres; exact absurd hres (by simp)
      | ok r =>
        rw [hr] at hres
        simp only at hres
        rcases resolve_query_resolved_mem lookup cache (trimStr userText) r k hr hres
          with ⟨p, hp, hpk⟩ | ⟨e, he, hek⟩
        · exact hpk ▸ hk p hp
        · exact hc e he k hek

/-- Witness for C8 at a concrete state: adding `" MILK "` resolves through
the exact tier to the stored key `"Milk"`, which is non-empty. -/
theorem addItemKeyNonempty_witness :
    "Milk".data ≠ [] ∧
      "Milk".data = (resolveQuery [⟨"Milk".data, 10, 1⟩] [] (trimStr " MILK ".data)).resolved.getD
        (trimStr " MILK ".data) :=
  addItemKeyNonempty [⟨"Milk".data, 10, 1⟩] [] " MILK ".data "Milk".data
    (by decide) (by decide) (by decide)

/-- Claim C10 (code bug): when resolution of a non-blank query falls
through the exact, cache and partial tiers, the word-based fourth tier of
`resolve_query` raises the ambiguous-column error instead of producing a
`('words', 0.6)` or `('fallback', 0)` result — here evaluated at the query
`"zzz"` against empty tables. -/
theorem resolveQueryWordTierRaises :
    resolve_query [] [] "zzz".data = .error .ambiguousWordColumn := by
  decide

end GroceryResolver
